import Mathlib

/-!
Verification of the bitnuc 2-bit nucleotide packing library.

Embedded code:
- `as_2bit_with` / `as_2bit` : the dispatcher `as_2bit` from
  src/src/utils/packing/mod.rs (it delegates to a backend chosen by a
  runtime capability probe, with no check of its own).
- `from_2bit` : the unpacker from src/src/utils/unpacking/mod.rs.
- The scalar backend (`naive_as_2bit`) and the vectorized backends
  (`vec_as_2bit`) live in files that are not part of the provided sources
  (naive.rs, avx.rs, aarch64.rs); they are modelled from the spec,
  sections 4.1-4.3.

Bytes are modelled as `Nat` (ASCII codes), `u64` values as `Nat`
(all packed values are < 4^32 = 2^64, so no wraparound occurs),
and the Rust `unreachable!` panic in the unpacker as the `none`
case of an `Option`-valued result.
-/

namespace Bitnuc

/-- The error enum `NucleotideError` of the crate (payloads: the offending
byte, the over-long input length, the over-long requested length). -/
inductive NucleotideError where
  | InvalidBase (base : Nat)
  | SequenceTooLong (n : Nat)
  | InvalidLength (n : Nat)
deriving DecidableEq, Repr

/-- Modelled from the spec: the Symbol Table encode mapping of section 4.1
(the byte-to-code `match` of the scalar backend naive.rs, which is not among
the provided sources): A/a -> 00, C/c -> 01, G/g -> 10, T/t -> 11, every
other byte has no code.  Bytes are ASCII: A=65 a=97 C=67 c=99 G=71 g=103
T=84 t=116. -/
def encode_base (base : Nat) : Option Nat :=
  if base = 65 ∨ base = 97 then some 0
  else if base = 67 ∨ base = 99 then some 1
  else if base = 71 ∨ base = 103 then some 2
  else if base = 84 ∨ base = 116 then some 3
  else none

/-- Modelled from the spec: the scan loop of the scalar backend (section 4.2,
naive.rs not among the provided sources): iterate positions in order, look up
the 2-bit code of each byte, abort with `InvalidBase` on the first byte
without a code, otherwise OR the code shifted left by 2*position into the
accumulator. -/
def naive_go (i : Nat) (packed : Nat) : List Nat → Except NucleotideError Nat
  | [] => Except.ok packed
  | base :: rest =>
    match encode_base base with
    | none => Except.error (NucleotideError.InvalidBase base)
    | some bits => naive_go (i + 1) (packed ||| (bits <<< (i * 2))) rest

/-- Modelled from the spec: the scalar backend pack (section 4.2): reject
inputs longer than 32 with `SequenceTooLong`, then run the scan loop with
the accumulator initialized to zero. -/
def naive_as_2bit (seq : List Nat) : Except NucleotideError Nat :=
  if seq.length > 32 then Except.error (NucleotideError.SequenceTooLong seq.length)
  else naive_go 0 0 seq

/-- Modelled from the spec: the lane-wise table lookup of a vectorized
backend (section 4.3): each input byte maps to its 2-bit code or to a
distinguishable invalid sentinel (255) within the widened lookup result. -/
def vec_lookup (base : Nat) : Nat :=
  (encode_base base).getD 255

/-- Modelled from the spec: a vectorized backend packs the per-lane 2-bit
codes into the correct bit positions of the 64-bit accumulator (section 4.3),
position i contributing its code ORed in at bit offset 2*i. -/
def vec_pack_codes : List Nat → Nat → Nat
  | [], _ => 0
  | c :: rest, i => (c <<< (i * 2)) ||| vec_pack_codes rest (i + 1)

/-- Modelled from the spec: a vectorized backend (section 4.3, avx.rs and
aarch64.rs not among the provided sources): apply the translation table
elementwise, reduce the batch to a single validity boolean; on failure
identify the first invalid byte in overall scan order and return its raw
value as the `InvalidBase` payload; on success pack all per-lane codes. -/
def vec_as_2bit (seq : List Nat) : Except NucleotideError Nat :=
  if seq.length > 32 then Except.error (NucleotideError.SequenceTooLong seq.length)
  else if (seq.map vec_lookup).all (fun c => c != 255) then
    Except.ok (vec_pack_codes (seq.map vec_lookup) 0)
  else
    match seq.find? (fun base => vec_lookup base == 255) with
    | some base => Except.error (NucleotideError.InvalidBase base)
    | none => Except.ok 0

/-- The dispatcher `as_2bit` of src/src/utils/packing/mod.rs, abstracted over
the backend it delegates to: the function body only delegates, it performs no
validation of its own. -/
def as_2bit_with (backend : List Nat → Except NucleotideError Nat)
    (seq : List Nat) : Except NucleotideError Nat :=
  backend seq

/-- The dispatcher `as_2bit` of src/src/utils/packing/mod.rs: probe the
runtime capability (modelled by the `simd` flag) and delegate to the
vectorized backend when it is present, to the scalar backend otherwise. -/
def as_2bit (simd : Bool) (seq : List Nat) : Except NucleotideError Nat :=
  if simd then as_2bit_with vec_as_2bit seq else as_2bit_with naive_as_2bit seq

/-- The `match bits` decode table inside `from_2bit`
(src/src/utils/unpacking/mod.rs): 00 -> A, 01 -> C, 10 -> G, 11 -> T, and
`none` for the `unreachable!` arm. -/
def decode_bits (bits : Nat) : Option Nat :=
  match bits with
  | 0 => some 65
  | 1 => some 67
  | 2 => some 71
  | 3 => some 84
  | _ => none

/-- The `for i in 0..expected_size` loop of `from_2bit`
(src/src/utils/unpacking/mod.rs), with `rem` iterations left at position `i`:
extract the 2-bit field at offset i*2, decode it, push the byte; `none`
models reaching the `unreachable!` panic. -/
def unpack_loop (packed : Nat) : Nat → Nat → Option (List Nat)
  | _, 0 => some []
  | i, rem + 1 =>
    match decode_bits ((packed >>> (i * 2)) &&& 3) with
    | none => none
    | some base => Option.map (fun rest => base :: rest) (unpack_loop packed (i + 1) rem)

/-- `from_2bit` of src/src/utils/unpacking/mod.rs: reject a requested size
above 32 with `InvalidLength`, otherwise run the decode loop from position 0.
The outer `Option` models the `unreachable!` panic (`none` = panic). -/
def from_2bit (packed : Nat) (expected_size : Nat) :
    Option (Except NucleotideError (List Nat)) :=
  if expected_size > 32 then
    some (Except.error (NucleotideError.InvalidLength expected_size))
  else
    Option.map Except.ok (unpack_loop packed 0 expected_size)

/-! Claim-side vocabulary: the notions the specification's sentences use. -/

/-- A byte of the valid alphabet {A,a,C,c,G,g,T,t} (ASCII values). -/
def validByte (b : Nat) : Bool :=
  (b == 65) || (b == 97) || (b == 67) || (b == 99) ||
  (b == 71) || (b == 103) || (b == 84) || (b == 116)

/-- Uppercase form of an ASCII byte (lowercase letters shifted down by 32). -/
def upper_base (b : Nat) : Nat :=
  if 97 ≤ b ∧ b ≤ 122 then b - 32 else b

/-- The 2-bit code of a byte, with default 0 (total version of the Symbol
Table used to state claims about valid inputs). -/
def code_of (b : Nat) : Nat :=
  (encode_base b).getD 0

/-- The uppercase ASCII letter of a 2-bit field value, as the spec words it:
00 -> A, 01 -> C, 10 -> G, 11 -> T. -/
def decode_char (bits : Nat) : Nat :=
  if bits = 0 then 65 else if bits = 1 then 67 else if bits = 2 then 71 else 84

/-- The spec's packed value: the OR over positions i in 0..n of the code of
the byte at position i shifted left by 2*i. -/
def or_accum_to (s : List Nat) (n : Nat) : Nat :=
  (List.range n).foldl (fun acc i => acc ||| (code_of (s.getD i 0) <<< (2 * i))) 0

/-- The spec's packed value for the whole sequence. -/
def or_accum (s : List Nat) : Nat :=
  or_accum_to s s.length

/-- The base-4 value of a little-endian list of 2-bit codes: the reference
shape every pack formulation is reduced to. -/
def packCodes : List Nat → Nat
  | [] => 0
  | c :: rest => c + 4 * packCodes rest

/-- The pure decode of `rem` positions starting at position `i`: the list the
unpack loop produces when no panic occurs. -/
def unpackChars (packed : Nat) : Nat → Nat → List Nat
  | _, 0 => []
  | i, rem + 1 =>
    decode_char ((packed >>> (i * 2)) &&& 3) :: unpackChars packed (i + 1) rem

/-! Basic facts about the Symbol Table and bit arithmetic. -/

theorem lor_mul_pow_eq_add (a b k : Nat) (h : a < 2 ^ k) :
    a ||| b * 2 ^ k = a + b * 2 ^ k := by
  have hb : b * 2 ^ k = b <<< k := (Nat.shiftLeft_eq b k).symm
  apply Nat.eq_of_testBit_eq
  intro i
  rw [Nat.testBit_lor]
  have hadd : a + b * 2 ^ k = 2 ^ k * b + a := by ring
  rw [hadd, Nat.testBit_mul_pow_two_add b h i, hb, Nat.testBit_shiftLeft]
  by_cases hik : k ≤ i
  · have : a.testBit i = false :=
      Nat.testBit_eq_false_of_lt (lt_of_lt_of_le h (Nat.pow_le_pow_right (by omega) hik))
    simp [this, hik, Nat.not_lt.mpr hik]
  · simp [hik, Nat.lt_of_not_le hik]

theorem and_three_eq (x : Nat) : x &&& 3 = x % 4 := by
  have h := Nat.and_pow_two_sub_one_eq_mod x 2
  norm_num at h
  exact h

theorem code_of_lt (b : Nat) : code_of b < 4 := by
  unfold code_of encode_base
  split_ifs <;> simp

theorem encode_isSome_iff (b : Nat) : (encode_base b).isSome = validByte b := by
  unfold encode_base validByte
  split_ifs <;> simp_all

theorem vec_lookup_eq_sentinel (b : Nat) :
    (vec_lookup b == 255) = (encode_base b).isNone := by
  unfold vec_lookup encode_base
  split_ifs <;> simp

theorem encode_upper (b : Nat) : encode_base (upper_base b) = encode_base b := by
  unfold upper_base
  by_cases h : 97 ≤ b ∧ b ≤ 122
  · rw [if_pos h]
    obtain ⟨h1, h2⟩ := h
    interval_cases b <;> rfl
  · rw [if_neg h]

theorem decode_code (b : Nat) (h : validByte b = true) :
    decode_char (code_of b) = upper_base b := by
  unfold validByte at h
  simp only [Bool.or_eq_true, beq_iff_eq] at h
  rcases h with ((((((h | h) | h) | h) | h) | h) | h) | h <;> subst h <;> rfl

theorem decode_bits_eq (b : Nat) (h : b < 4) :
    decode_bits b = some (decode_char b) := by
  interval_cases b <;> rfl

theorem four_pow_eq (i : Nat) : (4 : Nat) ^ i = 2 ^ (i * 2) := by
  rw [show (4 : Nat) = 2 ^ 2 from rfl, ← pow_mul, Nat.mul_comm]

theorem packCodes_lt (l : List Nat) (h : ∀ c ∈ l, c < 4) :
    packCodes l < 4 ^ l.length := by
  induction l with
  | nil => simp [packCodes]
  | cons c rest ih =>
    have hc : c < 4 := h c (by simp)
    have hr := ih (fun x hx => h x (by simp [hx]))
    simp only [packCodes, List.length_cons, pow_succ]
    omega

theorem packCodes_append (l : List Nat) (c : Nat) :
    packCodes (l ++ [c]) = packCodes l + c * 4 ^ l.length := by
  induction l with
  | nil => simp [packCodes]
  | cons d rest ih =>
    simp only [List.cons_append, packCodes, List.append_eq]
    rw [ih]
    simp only [List.length_cons, pow_succ]
    ring

theorem packCodes_extract (l : List Nat) (h : ∀ c ∈ l, c < 4) :
    ∀ i, i < l.length → (packCodes l >>> (i * 2)) &&& 3 = l.getD i 0 := by
  induction l with
  | nil => intro i hi; simp at hi
  | cons c rest ih =>
    intro i hi
    have hc : c < 4 := h c (by simp)
    match i with
    | 0 =>
      simp only [packCodes, Nat.zero_mul, Nat.shiftRight_zero, and_three_eq,
        List.getD_cons_zero]
      omega
    | j + 1 =>
      have hj : j < rest.length := by simpa using hi
      have step : (packCodes (c :: rest)) >>> ((j + 1) * 2) =
          (packCodes rest) >>> (j * 2) := by
        have h1 : (j + 1) * 2 = 2 + j * 2 := by ring
        rw [h1, Nat.shiftRight_add]
        congr 1
        simp only [packCodes]
        omega
      rw [step, List.getD_cons_succ]
      exact ih (fun x hx => h x (by simp [hx])) j hj

/-! Characterization of the scalar backend. -/

theorem naive_go_ok (seq : List Nat) (hv : ∀ b ∈ seq, (encode_base b).isSome = true) :
    ∀ i acc, acc < 4 ^ i →
      naive_go i acc seq = Except.ok (acc + packCodes (seq.map code_of) * 4 ^ i) := by
  induction seq with
  | nil =>
    intro i acc _
    simp [naive_go, packCodes]
  | cons b rest ih =>
    intro i acc hacc
    have hb : (encode_base b).isSome = true := hv b (by simp)
    obtain ⟨c, hc⟩ := Option.isSome_iff_exists.mp hb
    have hcode : code_of b = c := by simp [code_of, hc]
    have hclt : c < 4 := by
      have := code_of_lt b
      rwa [hcode] at this
    have hshift : c <<< (i * 2) = c * 2 ^ (i * 2) := Nat.shiftLeft_eq c (i * 2)
    have hacc2 : acc < 2 ^ (i * 2) := by
      rw [← four_pow_eq]
      exact hacc
    have hor : acc ||| c <<< (i * 2) = acc + c * 4 ^ i := by
      rw [hshift, lor_mul_pow_eq_add acc c (i * 2) hacc2, four_pow_eq i]
    have hlt : acc + c * 4 ^ i < 4 ^ (i + 1) := by
      have hp : (4 : Nat) ^ (i + 1) = 4 ^ i * 4 := pow_succ 4 i
      have hm : c * 4 ^ i ≤ 3 * 4 ^ i := Nat.mul_le_mul_right _ (by omega)
      omega
    simp only [naive_go, hc, hor]
    rw [ih (fun x hx => hv x (by simp [hx])) (i + 1) (acc + c * 4 ^ i) hlt]
    simp only [List.map_cons, packCodes, hcode, pow_succ]
    congr 1
    ring

theorem naive_go_error (seq : List Nat) (x : Nat)
    (hf : seq.find? (fun b => (encode_base b).isNone) = some x) :
    ∀ i acc, naive_go i acc seq = Except.error (NucleotideError.InvalidBase x) := by
  induction seq with
  | nil => simp at hf
  | cons b rest ih =>
    intro i acc
    cases hb : encode_base b with
    | none =>
      have hbx : b = x := by
        simp [List.find?_cons, hb] at hf
        exact hf
      subst hbx
      simp [naive_go, hb]
    | some c =>
      have hf' : rest.find? (fun b => (encode_base b).isNone) = some x := by
        simpa [List.find?_cons, hb] using hf
      simp only [naive_go, hb]
      exact ih hf' (i + 1) (acc ||| c <<< (i * 2))

theorem naive_ok (seq : List Nat) (hl : seq.length ≤ 32)
    (hv : ∀ b ∈ seq, (encode_base b).isSome = true) :
    naive_as_2bit seq = Except.ok (packCodes (seq.map code_of)) := by
  unfold naive_as_2bit
  rw [if_neg (by omega)]
  rw [naive_go_ok seq hv 0 0 (by norm_num)]
  simp

theorem naive_error_base (seq : List Nat) (x : Nat) (hl : seq.length ≤ 32)
    (hf : seq.find? (fun b => (encode_base b).isNone) = some x) :
    naive_as_2bit seq = Except.error (NucleotideError.InvalidBase x) := by
  unfold naive_as_2bit
  rw [if_neg (by omega)]
  exact naive_go_error seq x hf 0 0

theorem naive_error_long (seq : List Nat) (hl : 32 < seq.length) :
    naive_as_2bit seq = Except.error (NucleotideError.SequenceTooLong seq.length) := by
  unfold naive_as_2bit
  rw [if_pos (by omega)]

/-! Characterization of the vectorized backend and the dispatcher. -/

theorem vec_pack_codes_eq (l : List Nat) (h : ∀ c ∈ l, c < 4) :
    ∀ i, vec_pack_codes l i = packCodes l * 4 ^ i := by
  induction l with
  | nil => intro i; simp [vec_pack_codes, packCodes]
  | cons c rest ih =>
    intro i
    have hc : c < 4 := h c (by simp)
    have hpos : 0 < (4 : Nat) ^ i := pow_pos (by norm_num) i
    simp only [vec_pack_codes, packCodes]
    rw [ih (fun x hx => h x (by simp [hx])) (i + 1)]
    have hlt4 : c * 4 ^ i < 4 ^ (i + 1) := by
      have h1 : c * 4 ^ i ≤ 3 * 4 ^ i := Nat.mul_le_mul_right _ (by omega)
      have h2 : (4 : Nat) ^ (i + 1) = 4 ^ i * 4 := pow_succ 4 i
      omega
    rw [Nat.shiftLeft_eq, ← four_pow_eq, four_pow_eq (i + 1),
      lor_mul_pow_eq_add _ _ _ (by rw [← four_pow_eq]; exact hlt4), ← four_pow_eq,
      pow_succ]
    ring

theorem all_codes_valid (seq : List Nat)
    (hv : ∀ b ∈ seq, (encode_base b).isSome = true) :
    (seq.map vec_lookup).all (fun c => c != 255) = true := by
  rw [List.all_eq_true]
  intro c hc
  rw [List.mem_map] at hc
  obtain ⟨b, hb, rfl⟩ := hc
  obtain ⟨v, hvv⟩ := Option.isSome_iff_exists.mp (hv b hb)
  have hv4 : v < 4 := by
    have := code_of_lt b
    simp only [code_of, hvv, Option.getD_some] at this
    exact this
  simp only [vec_lookup, hvv, Option.getD_some, bne_iff_ne, ne_eq]
  omega

theorem map_vec_lookup_eq (seq : List Nat)
    (hv : ∀ b ∈ seq, (encode_base b).isSome = true) :
    seq.map vec_lookup = seq.map code_of := by
  apply List.map_congr_left
  intro b hb
  obtain ⟨v, hvv⟩ := Option.isSome_iff_exists.mp (hv b hb)
  simp [vec_lookup, code_of, hvv]

theorem vec_eq_naive (seq : List Nat) : vec_as_2bit seq = naive_as_2bit seq := by
  by_cases hl : 32 < seq.length
  · unfold vec_as_2bit naive_as_2bit
    rw [if_pos hl, if_pos hl]
  · have hl' : seq.length ≤ 32 := by omega
    cases hf : seq.find? (fun b => (encode_base b).isNone) with
    | none =>
      have hv : ∀ b ∈ seq, (encode_base b).isSome = true := by
        intro b hb
        have h1 := List.find?_eq_none.mp hf b hb
        simp only [Option.isNone_iff_eq_none] at h1
        simp [Option.isSome_iff_ne_none, h1]
      rw [naive_ok seq hl' hv]
      unfold vec_as_2bit
      rw [if_neg (by omega), if_pos (all_codes_valid seq hv), map_vec_lookup_eq seq hv,
        vec_pack_codes_eq _ (by
          intro c hc
          rw [List.mem_map] at hc
          obtain ⟨b, _, rfl⟩ := hc
          exact code_of_lt b) 0]
      simp
    | some x =>
      rw [naive_error_base seq x hl' hf]
      unfold vec_as_2bit
      have hx : x ∈ seq := List.mem_of_find?_eq_some hf
      have hxn : (encode_base x).isNone = true :=
        List.find?_some (p := fun b => (encode_base b).isNone) hf
      have hall : (seq.map vec_lookup).all (fun c => c != 255) = false := by
        rw [List.all_eq_false]
        refine ⟨vec_lookup x, List.mem_map_of_mem _ hx, ?_⟩
        rw [Option.isNone_iff_eq_none] at hxn
        simp [vec_lookup, hxn]
      have hpred : (fun base => vec_lookup base == 255) =
          (fun b => (encode_base b).isNone) := by
        funext b
        exact vec_lookup_eq_sentinel b
      rw [if_neg (by omega), if_neg (by simp [hall]), hpred, hf]

theorem as_2bit_eq_naive (simd : Bool) (seq : List Nat) :
    as_2bit simd seq = naive_as_2bit seq := by
  cases simd
  · simp [as_2bit, as_2bit_with]
  · simp only [as_2bit, as_2bit_with, if_true]
    exact vec_eq_naive seq

/-! Characterization of the unpacker. -/

theorem unpack_loop_eq (packed : Nat) :
    ∀ rem i, unpack_loop packed i rem = some (unpackChars packed i rem) := by
  intro rem
  induction rem with
  | zero => intro i; rfl
  | succ n ih =>
    intro i
    have hb : (packed >>> (i * 2)) &&& 3 < 4 := by
      have h3 : (packed >>> (i * 2)) &&& 3 ≤ 3 := Nat.and_le_right
      omega
    simp only [unpack_loop, decode_bits_eq _ hb, unpackChars]
    rw [ih (i + 1)]
    rfl

theorem from_2bit_eq (packed L : Nat) (hL : L ≤ 32) :
    from_2bit packed L = some (Except.ok (unpackChars packed 0 L)) := by
  unfold from_2bit
  rw [if_neg (by omega), unpack_loop_eq]
  rfl

theorem unpackChars_length (packed : Nat) :
    ∀ rem i, (unpackChars packed i rem).length = rem := by
  intro rem
  induction rem with
  | zero => intro i; rfl
  | succ n ih =>
    intro i
    simp only [unpackChars, List.length_cons, ih (i + 1)]

theorem unpackChars_getD (packed : Nat) :
    ∀ rem i j, j < rem →
      (unpackChars packed i rem).getD j 0 =
        decode_char ((packed >>> ((i + j) * 2)) &&& 3) := by
  intro rem
  induction rem with
  | zero => intro i j hj; omega
  | succ n ih =>
    intro i j hj
    match j with
    | 0 => simp [unpackChars]
    | k + 1 =>
      simp only [unpackChars, List.getD_cons_succ]
      rw [ih (i + 1) k (by omega)]
      have h2 : i + 1 + k = i + (k + 1) := by omega
      rw [h2]

theorem unpackChars_shift (packed : Nat) :
    ∀ rem i, unpackChars packed (i + 1) rem = unpackChars (packed >>> 2) i rem := by
  intro rem
  induction rem with
  | zero => intro i; rfl
  | succ n ih =>
    intro i
    simp only [unpackChars]
    have h1 : (i + 1) * 2 = 2 + i * 2 := by ring
    rw [h1, Nat.shiftRight_add, ih (i + 1)]

theorem unpack_packCodes (l : List Nat) (h : ∀ c ∈ l, c < 4) :
    unpackChars (packCodes l) 0 l.length = l.map decode_char := by
  induction l with
  | nil => rfl
  | cons c rest ih =>
    have hc : c < 4 := h c (by simp)
    simp only [List.length_cons, unpackChars, List.map_cons]
    have hhead : (packCodes (c :: rest) >>> (0 * 2)) &&& 3 = c := by
      simp only [packCodes, Nat.zero_mul, Nat.shiftRight_zero, and_three_eq]
      omega
    have htail : packCodes (c :: rest) >>> 2 = packCodes rest := by
      simp only [packCodes]
      omega
    rw [hhead, show (0 : Nat) + 1 = 0 + 1 from rfl, unpackChars_shift, htail,
      ih (fun x hx => h x (by simp [hx]))]

/-! Bridging lemmas for the remaining claim statements. -/

theorem map_code_getD (s : List Nat) : ∀ n, n < s.length →
    (s.map code_of).getD n 0 = code_of (s.getD n 0) := by
  induction s with
  | nil => intro n hn; simp at hn
  | cons b rest ih =>
    intro n hn
    match n with
    | 0 => rfl
    | k + 1 =>
      simp only [List.map_cons, List.getD_cons_succ]
      exact ih k (by simpa using hn)

theorem take_succ_getD (l : List Nat) : ∀ n, n < l.length →
    l.take (n + 1) = l.take n ++ [l.getD n 0] := by
  induction l with
  | nil => intro n hn; simp at hn
  | cons c rest ih =>
    intro n hn
    match n with
    | 0 => simp
    | k + 1 =>
      simp only [List.take_succ_cons, List.getD_cons_succ, List.cons_append]
      rw [ih k (by simpa using hn)]

theorem or_accum_to_eq (s : List Nat) : ∀ n, n ≤ s.length →
    or_accum_to s n = packCodes ((s.map code_of).take n) := by
  intro n
  induction n with
  | zero => intro _; rfl
  | succ k ih =>
    intro hk
    have hk' : k < s.length := by omega
    have hkm : k < (s.map code_of).length := by
      rw [List.length_map]
      omega
    unfold or_accum_to
    rw [List.range_succ, List.foldl_append]
    simp only [List.foldl_cons, List.foldl_nil]
    have hfold := ih (by omega)
    unfold or_accum_to at hfold
    rw [hfold]
    have hlen : ((s.map code_of).take k).length = k := by
      rw [List.length_take, List.length_map]
      omega
    have hcodes4 : ∀ c ∈ (s.map code_of).take k, c < 4 := by
      intro c hc
      have hc' := List.mem_of_mem_take hc
      rw [List.mem_map] at hc'
      obtain ⟨b, _, rfl⟩ := hc'
      exact code_of_lt b
    have hlt := packCodes_lt _ hcodes4
    rw [hlen] at hlt
    have hpow2 : (2 : Nat) ^ (2 * k) = 4 ^ k := by
      rw [four_pow_eq, Nat.mul_comm]
    rw [Nat.shiftLeft_eq, hpow2, ← hpow2,
      lor_mul_pow_eq_add _ _ _ (by rw [hpow2]; exact hlt), hpow2,
      take_succ_getD _ k hkm, packCodes_append, hlen, map_code_getD s k hk']

theorem or_accum_eq (s : List Nat) : or_accum s = packCodes (s.map code_of) := by
  unfold or_accum
  rw [or_accum_to_eq s s.length (le_refl _)]
  congr 1
  have hsame : (s.map code_of).length = s.length := List.length_map s code_of
  rw [← hsame, List.take_length]

theorem naive_go_upper (s : List Nat) (hv : ∀ b ∈ s, (encode_base b).isSome = true) :
    ∀ i acc, naive_go i acc (s.map upper_base) = naive_go i acc s := by
  induction s with
  | nil => intro i acc; rfl
  | cons b rest ih =>
    intro i acc
    obtain ⟨c, hc⟩ := Option.isSome_iff_exists.mp (hv b (by simp))
    simp only [List.map_cons, naive_go, encode_upper, hc]
    exact ih (fun x hx => hv x (by simp [hx])) (i + 1) _

theorem extract_mod (p L i : Nat) (hi : i < L) :
    ((p % 2 ^ (2 * L)) >>> (i * 2)) &&& 3 = (p >>> (i * 2)) &&& 3 := by
  rw [and_three_eq, and_three_eq, Nat.shiftRight_eq_div_pow, Nat.shiftRight_eq_div_pow]
  have hdecomp : p = p % 2 ^ (2 * L) + 2 ^ (2 * L) * (p / 2 ^ (2 * L)) :=
    (Nat.mod_add_div p (2 ^ (2 * L))).symm
  have hpows : (2 : Nat) ^ (2 * L) = 2 ^ (i * 2) * (4 * 2 ^ ((L - i - 1) * 2)) := by
    rw [show (4 : Nat) = 2 ^ 2 from rfl, ← pow_add, ← pow_add]
    congr 1
    omega
  conv_rhs => rw [hdecomp]
  rw [hpows, Nat.mul_assoc, Nat.add_mul_div_left _ _ (pow_pos (by norm_num) (i * 2)),
    Nat.mul_assoc, Nat.add_mul_mod_self_left]

theorem unpackChars_congr (p q : Nat) :
    ∀ rem i,
      (∀ j, j < rem → (p >>> ((i + j) * 2)) &&& 3 = (q >>> ((i + j) * 2)) &&& 3) →
      unpackChars p i rem = unpackChars q i rem := by
  intro rem
  induction rem with
  | zero => intro i _; rfl
  | succ n ih =>
    intro i hj
    simp only [unpackChars]
    have h0 : (p >>> (i * 2)) &&& 3 = (q >>> (i * 2)) &&& 3 := by
      simpa using hj 0 (by omega)
    rw [h0, ih (i + 1) (fun j hjn => by
      have h1 := hj (j + 1) (by omega)
      have h2 : i + (j + 1) = i + 1 + j := by ring
      rwa [h2] at h1)]

/-! The claims. -/

/-- C1: for every byte sequence over {A,a,C,c,G,g,T,t} of length n at most
32, pack (`as_2bit`, under either backend the dispatcher may select)
succeeds, and unpack (`from_2bit`) of the packed value with length n returns
the uppercase form of the input. -/
theorem round_trip_upper (simd : Bool) (s : List Nat)
    (hv : ∀ b ∈ s, validByte b = true) (hl : s.length ≤ 32) :
    ∃ p, as_2bit simd s = Except.ok p ∧
      from_2bit p s.length = some (Except.ok (s.map upper_base)) := by
  have hv' : ∀ b ∈ s, (encode_base b).isSome = true := by
    intro b hb
    rw [encode_isSome_iff]
    exact hv b hb
  have hcvalid : ∀ c ∈ s.map code_of, c < 4 := by
    intro c hc
    rw [List.mem_map] at hc
    obtain ⟨b, _, rfl⟩ := hc
    exact code_of_lt b
  refine ⟨packCodes (s.map code_of), ?_, ?_⟩
  · rw [as_2bit_eq_naive, naive_ok s hl hv']
  · rw [from_2bit_eq _ _ hl]
    have hlen : s.length = (s.map code_of).length := (List.length_map s code_of).symm
    rw [hlen, unpack_packCodes _ hcvalid, List.map_map]
    have hmap : s.map (decode_char ∘ code_of) = s.map upper_base := by
      apply List.map_congr_left
      intro b hb
      exact decode_code b (hv b hb)
    rw [hmap]

/-- C1 witness at the input "acgt" (bytes 97,99,103,116). -/
theorem round_trip_upper_witness :
    ∃ p, as_2bit true [97, 99, 103, 116] = Except.ok p ∧
      from_2bit p 4 = some (Except.ok [65, 67, 71, 84]) :=
  round_trip_upper true [97, 99, 103, 116] (by decide) (by decide)

/-- C2: on valid input of length n at most 32, pack returns exactly the OR
over positions i in 0..n of the 2-bit code of the byte at position i shifted
left by 2*i (position 0 in the least-significant pair), and every bit of the
result at position at least 2*n is zero. -/
theorem pack_or_spec (simd : Bool) (s : List Nat)
    (hv : ∀ b ∈ s, validByte b = true) (hl : s.length ≤ 32) :
    as_2bit simd s = Except.ok (or_accum s) ∧
    ∀ j, 2 * s.length ≤ j → (or_accum s).testBit j = false := by
  have hv' : ∀ b ∈ s, (encode_base b).isSome = true := by
    intro b hb
    rw [encode_isSome_iff]
    exact hv b hb
  have hcvalid : ∀ c ∈ s.map code_of, c < 4 := by
    intro c hc
    rw [List.mem_map] at hc
    obtain ⟨b, _, rfl⟩ := hc
    exact code_of_lt b
  have hlt : or_accum s < 2 ^ (2 * s.length) := by
    rw [or_accum_eq]
    have h1 := packCodes_lt _ hcvalid
    rw [List.length_map] at h1
    calc packCodes (s.map code_of) < 4 ^ s.length := h1
      _ = 2 ^ (s.length * 2) := four_pow_eq s.length
      _ = 2 ^ (2 * s.length) := by rw [Nat.mul_comm]
  constructor
  · rw [as_2bit_eq_naive, naive_ok s hl hv', or_accum_eq]
  · intro j hj
    apply Nat.testBit_eq_false_of_lt
    calc or_accum s < 2 ^ (2 * s.length) := hlt
      _ ≤ 2 ^ j := Nat.pow_le_pow_right (by omega) hj

/-- C2 witness at the input "ACGT" (bytes 65,67,71,84). -/
theorem pack_or_spec_witness :
    as_2bit false [65, 67, 71, 84] = Except.ok (or_accum [65, 67, 71, 84]) ∧
    ∀ j, 2 * (4 : Nat) ≤ j → (or_accum [65, 67, 71, 84]).testBit j = false :=
  pack_or_spec false [65, 67, 71, 84] (by decide) (by decide)

/-- C3: for every packed value and every requested length L at most 32,
unpack succeeds with a list of exactly L bytes whose byte at each position i
is the uppercase letter decoding the 2-bit field (packed >> (2*i)) & 0b11
via 00 -> A, 01 -> C, 10 -> G, 11 -> T. -/
theorem unpack_spec (packed L : Nat) (hL : L ≤ 32) :
    ∃ l, from_2bit packed L = some (Except.ok l) ∧ l.length = L ∧
      ∀ i, i < L → l.getD i 0 = decode_char ((packed >>> (2 * i)) &&& 3) := by
  refine ⟨unpackChars packed 0 L, from_2bit_eq packed L hL,
    unpackChars_length packed L 0, ?_⟩
  intro i hi
  rw [unpackChars_getD packed L 0 i hi]
  have h1 : (0 + i) * 2 = 2 * i := by omega
  rw [h1]

/-- C3 witness at packed = 228 (0b11100100) and L = 4. -/
theorem unpack_spec_witness :
    ∃ l, from_2bit 228 4 = some (Except.ok l) ∧ l.length = 4 ∧
      ∀ i, i < 4 → l.getD i 0 = decode_char ((228 >>> (2 * i)) &&& 3) :=
  unpack_spec 228 4 (by decide)

/-- C4: on every input the vectorized backend produces the identical result
to the scalar reference backend (packed value and error payload alike), so
the dispatched pack equals the scalar reference regardless of which backend
the capability probe selects. -/
theorem backend_equivalence (simd : Bool) (seq : List Nat) :
    vec_as_2bit seq = naive_as_2bit seq ∧ as_2bit simd seq = naive_as_2bit seq :=
  ⟨vec_eq_naive seq, as_2bit_eq_naive simd seq⟩

/-- C5: on every input of length at most 32 containing a byte outside the
alphabet, pack returns `InvalidBase` carrying the raw value of the first such
byte in left-to-right scan order (and hence no packed value). -/
theorem pack_first_invalid (simd : Bool) (s : List Nat) (x : Nat)
    (hl : s.length ≤ 32)
    (hf : s.find? (fun b => !(validByte b)) = some x) :
    as_2bit simd s = Except.error (NucleotideError.InvalidBase x) := by
  have hpred : (fun b => !(validByte b)) = (fun b => (encode_base b).isNone) := by
    funext b
    rw [← encode_isSome_iff]
    cases encode_base b <;> simp
  rw [hpred] at hf
  rw [as_2bit_eq_naive, naive_error_base s x hl hf]

/-- C5 witness at the input "ANC" (bytes 65,78,67): first invalid byte 78. -/
theorem pack_first_invalid_witness :
    as_2bit true [65, 78, 67] = Except.error (NucleotideError.InvalidBase 78) :=
  pack_first_invalid true [65, 78, 67] 78 (by decide) (by decide)

/-- C6 counterexample: the dispatcher body delegates to the selected backend
without any check of its own, so with a backend that does not reject, a
33-byte input is not rejected; this refutes the claim that the dispatcher
itself rejects over-long input before any backend runs. -/
theorem dispatcher_no_length_check :
    ¬ ∀ (backend : List Nat → Except NucleotideError Nat) (seq : List Nat),
        32 < seq.length →
        as_2bit_with backend seq =
          Except.error (NucleotideError.SequenceTooLong seq.length) := by
  intro h
  have h33 : 32 < (List.replicate 33 65).length := by simp
  have hc := h (fun _ => Except.ok 0) (List.replicate 33 65) h33
  simp [as_2bit_with] at hc

/-- C6 amended: the length bound is enforced inside each backend rather than
by the dispatcher; the dispatched pack still rejects every input longer than
32 symbols with `SequenceTooLong` carrying the input length. -/
theorem length_bound_enforced (simd : Bool) (seq : List Nat)
    (h : 32 < seq.length) :
    as_2bit simd seq = Except.error (NucleotideError.SequenceTooLong seq.length) := by
  rw [as_2bit_eq_naive]
  exact naive_error_long seq h

/-- C6 amended-claim witness at 33 copies of byte 65. -/
theorem length_bound_enforced_witness :
    as_2bit true (List.replicate 33 65) =
      Except.error (NucleotideError.SequenceTooLong 33) := by
  have h := length_bound_enforced true (List.replicate 33 65) (by decide)
  simpa using h

/-- C7: pack of every valid 32-symbol sequence succeeds, and pack of every
33-symbol sequence fails with `SequenceTooLong 33`. -/
theorem pack_length_boundary (simd : Bool) (s32 s33 : List Nat) :
    ((∀ b ∈ s32, validByte b = true) → s32.length = 32 →
      ∃ p, as_2bit simd s32 = Except.ok p) ∧
    (s33.length = 33 →
      as_2bit simd s33 = Except.error (NucleotideError.SequenceTooLong 33)) := by
  constructor
  · intro hv hlen
    have hv' : ∀ b ∈ s32, (encode_base b).isSome = true := by
      intro b hb
      rw [encode_isSome_iff]
      exact hv b hb
    exact ⟨_, by rw [as_2bit_eq_naive, naive_ok s32 (by omega) hv']⟩
  · intro hlen
    rw [as_2bit_eq_naive, naive_error_long s33 (by omega), hlen]

/-- C7 witness at 32 and 33 copies of byte 65. -/
theorem pack_length_boundary_witness :
    (∃ p, as_2bit false (List.replicate 32 65) = Except.ok p) ∧
    as_2bit false (List.replicate 33 65) =
      Except.error (NucleotideError.SequenceTooLong 33) := by
  have h := pack_length_boundary false (List.replicate 32 65) (List.replicate 33 65)
  exact ⟨h.1 (by decide) (by decide), h.2 (by decide)⟩

/-- C8: unpack never reaches the panic branch, fails exactly when the
requested length exceeds 32 (returning `InvalidLength` with that length), and
succeeds for every length at most 32 and every packed value. -/
theorem unpack_fail_iff (packed L : Nat) :
    from_2bit packed L ≠ none ∧
    (32 < L →
      from_2bit packed L = some (Except.error (NucleotideError.InvalidLength L))) ∧
    (L ≤ 32 → ∃ l, from_2bit packed L = some (Except.ok l)) := by
  by_cases h : 32 < L
  · refine ⟨?_, fun _ => ?_, fun hL => by omega⟩
    · unfold from_2bit
      rw [if_pos h]
      simp
    · unfold from_2bit
      rw [if_pos h]
  · have hL : L ≤ 32 := by omega
    rw [from_2bit_eq packed L hL]
    exact ⟨by simp, fun hh => by omega, fun _ => ⟨_, rfl⟩⟩

/-- C8 witness: failure at L = 33, success at L = 4 (packed = 0). -/
theorem unpack_fail_iff_witness :
    from_2bit 0 33 = some (Except.error (NucleotideError.InvalidLength 33)) ∧
    ∃ l, from_2bit 0 4 = some (Except.ok l) :=
  ⟨(unpack_fail_iff 0 33).2.1 (by omega), (unpack_fail_iff 0 4).2.2 (by omega)⟩

/-- C9: pack is invariant under letter case: for every valid sequence of
length at most 32, pack of the sequence equals pack of its uppercase form. -/
theorem pack_case_insensitive (simd : Bool) (s : List Nat)
    (hv : ∀ b ∈ s, validByte b = true) (_hl : s.length ≤ 32) :
    as_2bit simd s = as_2bit simd (s.map upper_base) := by
  have hv' : ∀ b ∈ s, (encode_base b).isSome = true := by
    intro b hb
    rw [encode_isSome_iff]
    exact hv b hb
  rw [as_2bit_eq_naive, as_2bit_eq_naive]
  unfold naive_as_2bit
  rw [List.length_map]
  by_cases h : 32 < s.length
  · rw [if_pos h, if_pos h]
  · rw [if_neg h, if_neg h]
    exact (naive_go_upper s hv' 0 0).symm

/-- C9 witness at the input "acgt" (bytes 97,99,103,116). -/
theorem pack_case_insensitive_witness :
    as_2bit true [97, 99, 103, 116] =
      as_2bit true ([97, 99, 103, 116].map upper_base) :=
  pack_case_insensitive true [97, 99, 103, 116] (by decide) (by decide)

/-- C10: for every length L at most 32, unpack depends only on the low 2*L
bits of the packed value: two packed values congruent modulo 2^(2*L) unpack
to identical results. -/
theorem unpack_low_bits_only (L p q : Nat) (hL : L ≤ 32)
    (h : p % 2 ^ (2 * L) = q % 2 ^ (2 * L)) :
    from_2bit p L = from_2bit q L := by
  rw [from_2bit_eq p L hL, from_2bit_eq q L hL]
  have hchars : unpackChars p 0 L = unpackChars q 0 L := by
    apply unpackChars_congr p q L 0
    intro j hj
    have hp := extract_mod p L j (by omega)
    have hq := extract_mod q L j (by omega)
    have hj0 : (0 + j) * 2 = j * 2 := by omega
    rw [hj0, ← hp, ← hq, h]
  rw [hchars]

/-- C10 witness at L = 4, p = 257, q = 1 (257 = 1 mod 2^8). -/
theorem unpack_low_bits_only_witness :
    from_2bit 257 4 = from_2bit 1 4 :=
  unpack_low_bits_only 4 257 1 (by decide) (by decide)
